import Mathlib

/-!
Shallow embedding of the kenken solver (puzzle.py, solver.py, utils.py).

Cells are identified by their index in the puzzle's cell list (the Python
code identifies them by (row, col); the solver only ever uses the cell
list order and the per-cell constraint lists, so an index is a faithful
key).  The mutable assignment state (each cell's `value`, `None` when
unassigned) is a `List (Option ℤ)` indexed by cell.  Python sets of
candidate ints become `Finset ℤ`; iteration order over a Python set is
unspecified, so wherever the code iterates a set we iterate its elements
in ascending order (`Finset.sort`).
-/

namespace KenKen

/-- Constraint variants: UniquenessConstraint, AddConstraint, MulConstraint,
SubConstraint, DivConstraint, ConConstraint (puzzle.py). -/
inductive CKind where
  | unique
  | add
  | mul
  | sub
  | div
  | con
  deriving DecidableEq, Repr

/-- A constraint (cage or row/column group): its variant, the indices of its
cells (in the order the Python object holds them), and the target value
(`ValueConstraint.value`; unused by the Uniqueness variant). -/
structure Constraint where
  kind : CKind
  cells : List Nat
  value : ℤ
  deriving DecidableEq, Repr

/-- A puzzle: width `N`, number of cells, and the constraint list
(puzzle.py `Puzzle.__init__`). -/
structure Puzzle where
  width : Nat
  numCells : Nat
  constraints : List Constraint
  deriving DecidableEq, Repr

/-- The assignment state: entry `i` is cell `i`'s `value` (`none` = unassigned). -/
abbrev State := List (Option ℤ)

/-- Current value of cell `i` (`cell.value`); out-of-range reads as unassigned. -/
def cellValue (st : State) (i : Nat) : Option ℤ :=
  st.getD i none

/-- Write cell `i`'s `value` field (`cell.value = candidate` / `cell.value = None`). -/
def writeCell (st : State) (i : Nat) (v : Option ℤ) : State :=
  st.set i v

/-- Puzzle.domain: the set {1..N}. -/
def Puzzle.domain (p : Puzzle) : Finset ℤ :=
  Finset.Icc 1 (p.width : ℤ)

/-- Constraint.values: the current per-cell values, gaps included. -/
def values (c : Constraint) (st : State) : List (Option ℤ) :=
  c.cells.map (fun i => cellValue st i)

/-- Values of the assigned cells, in cell order
(`cell.value for cell in constraint.assigned`). -/
def assignedVals (c : Constraint) (st : State) : List ℤ :=
  (values c st).filterMap id

/-- Constraint.unassigned: the cells whose values are absent. -/
def unassignedCells (c : Constraint) (st : State) : List Nat :=
  c.cells.filter (fun i => (cellValue st i).isNone)

/-- Sequence a list of optional values: `some` of the full list when no entry
is `none` (models Python's `None not in values` guard before `evaluate`). -/
def seqOpt : List (Option ℤ) → Option (List ℤ)
  | [] => some []
  | none :: _ => none
  | some v :: l =>
    match seqOpt l with
    | some vs => some (v :: vs)
    | none => none

/-- Constraint.evaluate for each variant (puzzle.py).  For Sub/Div/Con the
Python code indexes `values[0]` / `values[1]`; lists too short to index
never reach `evaluate` in the program, and evaluate to `false` here. -/
def evaluate (c : Constraint) (vs : List ℤ) : Bool :=
  match c.kind with
  | .unique => vs.dedup.length == vs.length
  | .add => vs.sum == c.value
  | .mul => vs.prod == c.value
  | .sub =>
    match vs with
    | a :: b :: _ => |a - b| == c.value
    | _ => false
  | .div =>
    match vs with
    | a :: b :: _ => (a == b * c.value) || (b == a * c.value)
    | _ => false
  | .con =>
    match vs with
    | a :: _ => a == c.value
    | _ => false

/-- Constraint.solved: no value absent and `evaluate` holds. -/
def constraintSolved (c : Constraint) (st : State) : Bool :=
  match seqOpt (values c st) with
  | some vs => evaluate c vs
  | none => false

/-- Constraint.consistent: some value absent, or solved. -/
def constraintConsistent (c : Constraint) (st : State) : Bool :=
  (values c st).contains none || constraintSolved c st

/-- Puzzle.solved: every constraint solved. -/
def puzzleSolved (p : Puzzle) (st : State) : Bool :=
  p.constraints.all (fun c => constraintSolved c st)

/-- Puzzle.consistent: every constraint consistent. -/
def puzzleConsistent (p : Puzzle) (st : State) : Bool :=
  p.constraints.all (fun c => constraintConsistent c st)

/-- ReductionStrategy.reduce_unique: symmetric difference of the candidates
with the sibling cells' assigned values. -/
def reduce_unique (c : Constraint) (st : State) (cands : Finset ℤ) : Finset ℤ :=
  let av := (assignedVals c st).toFinset
  (cands \ av) ∪ (av \ cands)

/-- ReductionStrategy.reduce_add.  `remainder = value - total` with
`total = sum(assigned)` (AddConstraint.remainder). -/
def reduce_add (c : Constraint) (st : State) (cands : Finset ℤ) : Finset ℤ :=
  let remainder := c.value - (assignedVals c st).sum
  if (unassignedCells c st).length = 1 then
    if remainder ∈ cands then {remainder} else ∅
  else
    cands.filter (fun x => remainder - x > 0)

/-- ReductionStrategy.reduce_mul.  `remainder = value // total` with
`total = product(assigned)` (MulConstraint.remainder); Python's floor
division `//` and floor modulo `%` are `Int.fdiv` / `Int.fmod`.  (Python
raises on a zero divisor; solver states never produce one since
candidates stay within {1..N}.) -/
def reduce_mul (c : Constraint) (st : State) (cands : Finset ℤ) : Finset ℤ :=
  let remainder := Int.fdiv c.value (assignedVals c st).prod
  if (unassignedCells c st).length = 1 then
    if remainder ∈ cands then {remainder} else ∅
  else
    cands.filter (fun x => Int.fmod remainder x = 0)

/-- Elements of a Python set in the (ascending) order we fix for iteration.
Defined by lifting a structural insertion sort over the underlying multiset
(sorting respects permutation since ≤ on ℤ is linear and antisymmetric). -/
def sortedElems (s : Finset ℤ) : List ℤ :=
  Quotient.lift (fun l : List ℤ => l.insertionSort (· ≤ ·))
    (fun a b hab =>
      have hp : a.Perm b := hab
      List.eq_of_perm_of_sorted
        ((List.perm_insertionSort _ a).trans
          (hp.trans (List.perm_insertionSort _ b).symm))
        (List.sorted_insertionSort _ a)
        (List.sorted_insertionSort _ b))
    s.val

/-- utils.pairs applied to a candidate set: `itertools.combinations(l, 2)` of
its element list — every pair (x, y) with x strictly before y. -/
def pairsList : List ℤ → List (ℤ × ℤ)
  | [] => []
  | x :: xs => (xs.map (fun y => (x, y))) ++ pairsList xs

/-- ReductionStrategy.reduce_sub / reduce_div: filter the candidate pairs by
`constraint.evaluate(p)` and flatten the survivors back into a set
(utils.flatten collects both components of every surviving pair). -/
def reducePairs (c : Constraint) (cands : Finset ℤ) : Finset ℤ :=
  ((pairsList (sortedElems cands)).filter (fun q => evaluate c [q.1, q.2])).foldr
    (fun q s => insert q.1 (insert q.2 s)) ∅

/-- ReductionStrategy.reduce_con: `{value}` when value is a candidate, else empty. -/
def reduce_con (c : Constraint) (cands : Finset ℤ) : Finset ℤ :=
  if c.value ∈ cands then {c.value} else ∅

/-- Constraint.reduce: each variant defers to its ReductionStrategy method. -/
def reduce (c : Constraint) (st : State) (cands : Finset ℤ) : Finset ℤ :=
  match c.kind with
  | .unique => reduce_unique c st cands
  | .add => reduce_add c st cands
  | .mul => reduce_mul c st cands
  | .sub => reducePairs c cands
  | .div => reducePairs c cands
  | .con => reduce_con c cands

/-- Cell.constraints: the constraints containing cell `i`, in puzzle
construction order (`cell.constraints.append(self)` in `Constraint.__init__`
runs once per constraint, in constraint list order). -/
def cellConstraints (p : Puzzle) (i : Nat) : List Constraint :=
  p.constraints.filter (fun c => c.cells.contains i)

/-- Cell.candidates: start from the cell domain (set to `puzzle.domain` by the
solver's initialization) and intersect with each constraint's `reduce` of
the running set. -/
def candidates (p : Puzzle) (st : State) (i : Nat) : Finset ℤ :=
  (cellConstraints p i).foldl (fun cand c => cand ∩ reduce c st cand) p.domain

/-- Candidate values of cell `i` in the order the solver iterates them. -/
def candList (p : Puzzle) (st : State) (i : Nat) : List ℤ :=
  sortedElems (candidates p st i)

/-- Puzzle.unassigned: the unassigned cells, in cell list order. -/
def unassignedIdxs (p : Puzzle) (st : State) : List Nat :=
  (List.range p.numCells).filter (fun i => (cellValue st i).isNone)

/-- solve_order: the unassigned cells sorted ascending by candidate count
(Python `sorted` is stable, as is `List.insertionSort`). -/
def solveOrder (p : Puzzle) (st : State) : List Nat :=
  (unassignedIdxs p st).insertionSort
    (fun a b => (candidates p st a).card ≤ (candidates p st b).card)

/-- Solver statistics (`stats` dict in backtrack_solve). -/
structure Stats where
  backtracks : Nat
  recursiveCalls : Nat
  deriving DecidableEq, Repr

/-- The body of `for candidate in cell.candidates` inside `solve`: assign each
candidate in turn, and when the puzzle stays consistent bump
`recursive_calls` and recurse (`rec` is the recursive `solve` call); on a
failed or inconsistent branch set the cell back to `None` and continue.
Returns `none` only when the recursion ran out of fuel. -/
def tryCands (p : Puzzle) (rec : State → Stats → Option (Bool × State × Stats))
    (cell : Nat) : List ℤ → State → Stats → Option (Bool × State × Stats)
  | [], st, stats => some (false, st, stats)
  | v :: rest, st, stats =>
    if puzzleConsistent p (writeCell st cell (some v)) then
      match rec (writeCell st cell (some v))
          ⟨stats.backtracks, stats.recursiveCalls + 1⟩ with
      | none => none
      | some (true, st2, stats2) => some (true, st2, stats2)
      | some (false, st2, stats2) =>
        tryCands p rec cell rest (writeCell st2 cell none) stats2
    else
      tryCands p rec cell rest
        (writeCell (writeCell st cell (some v)) cell none) stats

/-- The recursive `solve`: when no cell is unassigned return `puzzle.solved`;
otherwise only the first cell of the sorted order is ever examined (the
`for cell in solve_order` loop returns inside its first iteration), and a
call that exhausts that cell's candidates bumps `backtracks` and fails.
`fuel` bounds the recursion depth; `none` signals fuel exhaustion, which
the termination theorem rules out for the fuel used by `backtrack_solve`. -/
def solveF (p : Puzzle) : Nat → State → Stats → Option (Bool × State × Stats)
  | 0, _, _ => none
  | fuel + 1, st, stats =>
    match solveOrder p st with
    | [] => some (puzzleSolved p st, st, stats)
    | cell :: _ =>
      match tryCands p (solveF p fuel) cell (candList p st cell) st stats with
      | none => none
      | some (true, st1, stats1) => some (true, st1, stats1)
      | some (false, st1, stats1) =>
        some (false, st1, ⟨stats1.backtracks + 1, stats1.recursiveCalls⟩)

/-- The state `initialize()` leaves: every cell's value absent, every cell's
domain set to `puzzle.domain` (the domain is baked into `candidates`). -/
def initState (p : Puzzle) : State :=
  List.replicate p.numCells none

/-- backtrack_solve: run `solve` from the initialized state with zeroed stats.
The fuel `numCells + 1` exceeds the recursion depth, which is bounded by
the number of cells. -/
def backtrack_solve (p : Puzzle) : Option (Bool × State × Stats) :=
  solveF p (p.numCells + 1) (initState p) ⟨0, 0⟩

/-- A 1×1 puzzle: one cell, its row and column Uniqueness constraints, and a
single SingleValue (Con) cage with target 1. -/
def p111 : Puzzle :=
  { width := 1
    numCells := 1
    constraints :=
      [ ⟨.unique, [0], 0⟩
      , ⟨.unique, [0], 0⟩
      , ⟨.con, [0], 1⟩ ] }

/-- A 2×2 puzzle (cells 0 = (0,0), 1 = (0,1), 2 = (1,0), 3 = (1,1)) with row
and column Uniqueness constraints and two SingleValue cages both demanding
target 1 in the same row: unsatisfiable. -/
def p22 : Puzzle :=
  { width := 2
    numCells := 4
    constraints :=
      [ ⟨.unique, [0, 1], 0⟩
      , ⟨.unique, [2, 3], 0⟩
      , ⟨.unique, [0, 2], 0⟩
      , ⟨.unique, [1, 3], 0⟩
      , ⟨.con, [0], 1⟩
      , ⟨.con, [1], 1⟩ ] }

/-- Every assigned cell value lies in the puzzle domain {1..N} (an invariant
of all states the search reaches, since assigned values come from candidate
sets). -/
def stateInv (p : Puzzle) (st : State) : Prop :=
  ∀ i v, cellValue st i = some v → v ∈ p.domain

/-! ## Basic state lemmas -/

theorem cellValue_writeCell (st : State) (i j : Nat) (v : Option ℤ) :
    cellValue (writeCell st i v) j =
      if i = j ∧ i < st.length then v else cellValue st j := by
  simp only [cellValue, writeCell, List.getD_eq_getElem?_getD, List.getElem?_set]
  by_cases hij : i = j
  · subst hij
    by_cases hi : i < st.length
    · simp [hi]
    · simp [hi, List.getElem?_eq_none (Nat.le_of_not_lt hi)]
  · simp [hij]

theorem writeCell_none_id {st : State} {i : Nat} (h : cellValue st i = none) :
    writeCell st i none = st := by
  by_cases hi : i < st.length
  · apply List.ext_getElem?
    intro j
    simp only [writeCell, List.getElem?_set]
    by_cases hij : i = j
    · subst hij
      simp only [cellValue, List.getD_eq_getElem?_getD] at h
      rcases hx : st[i]? with _ | x
      · simp [List.getElem?_eq_none_iff] at hx; omega
      · simp [hx] at h; simp [hi, hx, h]
    · simp [hij]
  · exact List.set_eq_of_length_le (Nat.le_of_not_lt hi)

theorem writeCell_restore {st : State} {i : Nat} (h : cellValue st i = none)
    (v : Option ℤ) : writeCell (writeCell st i v) i none = st := by
  rw [writeCell, writeCell, List.set_set]
  exact writeCell_none_id h

theorem length_writeCell (st : State) (i : Nat) (v : Option ℤ) :
    (writeCell st i v).length = st.length := by
  simp [writeCell]

theorem mem_unassignedIdxs {p : Puzzle} {st : State} {i : Nat} :
    i ∈ unassignedIdxs p st ↔ i < p.numCells ∧ cellValue st i = none := by
  simp [unassignedIdxs, List.mem_filter, List.mem_range, Option.isNone_iff_eq_none]

theorem nodup_unassignedIdxs (p : Puzzle) (st : State) :
    (unassignedIdxs p st).Nodup :=
  (List.nodup_range p.numCells).filter _

theorem unassignedIdxs_writeCell_some {p : Puzzle} {st : State} {i : Nat}
    (hlen : st.length = p.numCells) (hmem : i ∈ unassignedIdxs p st) (v : ℤ) :
    unassignedIdxs p (writeCell st i (some v)) = (unassignedIdxs p st).erase i := by
  obtain ⟨hi, _⟩ := mem_unassignedIdxs.1 hmem
  rw [(nodup_unassignedIdxs p st).erase_eq_filter]
  simp only [unassignedIdxs]
  rw [List.filter_filter]
  apply List.filter_congr
  intro j hj
  by_cases hij : j = i
  · subst hij
    have : cellValue (writeCell st j (some v)) j = some v := by
      rw [cellValue_writeCell]; simp [hlen, hi]
    simp [this]
  · have hij' : ¬ i = j := fun h => hij h.symm
    have : cellValue (writeCell st i (some v)) j = cellValue st j := by
      rw [cellValue_writeCell]; simp [hij']
    simp [this, hij]

theorem length_unassignedIdxs_writeCell_some {p : Puzzle} {st : State} {i : Nat}
    (hlen : st.length = p.numCells) (hmem : i ∈ unassignedIdxs p st) (v : ℤ) :
    (unassignedIdxs p (writeCell st i (some v))).length + 1 =
      (unassignedIdxs p st).length := by
  rw [unassignedIdxs_writeCell_some hlen hmem v, List.length_erase_of_mem hmem]
  have := List.length_pos.2 (List.ne_nil_of_mem hmem)
  omega

/-! ## The assigned-values-stay-in-domain invariant -/

theorem stateInv_initState (p : Puzzle) : stateInv p (initState p) := by
  intro i v h
  simp only [cellValue, initState, List.getD_eq_getElem?_getD,
    List.getElem?_replicate] at h
  by_cases hi : i < p.numCells <;> simp [hi] at h

theorem stateInv_writeCell_some {p : Puzzle} {st : State} {i : Nat} {v : ℤ}
    (hinv : stateInv p st) (hv : v ∈ p.domain) :
    stateInv p (writeCell st i (some v)) := by
  intro j w h
  rw [cellValue_writeCell] at h
  split at h
  · cases h; exact hv
  · exact hinv j w h

theorem stateInv_writeCell_none {p : Puzzle} {st : State} {i : Nat}
    (hinv : stateInv p st) : stateInv p (writeCell st i none) := by
  intro j w h
  rw [cellValue_writeCell] at h
  split at h
  · cases h
  · exact hinv j w h

/-! ## Candidate sets stay inside the domain -/

theorem foldl_inter_subset (st : State) (l : List Constraint) (s : Finset ℤ) :
    l.foldl (fun cand c => cand ∩ reduce c st cand) s ⊆ s := by
  induction l generalizing s with
  | nil => exact subset_rfl
  | cons c l ih =>
    exact (ih (s ∩ reduce c st s)).trans inf_le_left

theorem candidates_subset_domain (p : Puzzle) (st : State) (i : Nat) :
    candidates p st i ⊆ p.domain :=
  foldl_inter_subset st (cellConstraints p i) p.domain

theorem mem_sortedElems {s : Finset ℤ} {v : ℤ} :
    v ∈ sortedElems s ↔ v ∈ s := by
  rcases s with ⟨m, hnd⟩
  revert hnd
  refine Quotient.inductionOn m ?_
  intro l hnd
  show v ∈ l.insertionSort (· ≤ ·) ↔ _
  rw [List.mem_insertionSort]
  simp [Finset.mem_mk]

theorem mem_candList_domain {p : Puzzle} {st : State} {i : Nat} {v : ℤ}
    (h : v ∈ candList p st i) : v ∈ p.domain :=
  candidates_subset_domain p st i (mem_sortedElems.1 h)

/-- C10: after initialization every candidate set is a subset of {1..N}, in
every assignment state, because `candidates` intersects the running set with
each constraint's `reduce` output (no property of `reduce` is needed). -/
theorem claim_C10 (p : Puzzle) (st : State) (i : Nat) :
    candidates p st i ⊆ Finset.Icc 1 (p.width : ℤ) :=
  candidates_subset_domain p st i

/-! ## C3: reduce and the subset property -/

theorem pairsList_mem {l : List ℤ} {q : ℤ × ℤ} (h : q ∈ pairsList l) :
    q.1 ∈ l ∧ q.2 ∈ l := by
  induction l with
  | nil => cases h
  | cons x xs ih =>
    simp only [pairsList, List.mem_append, List.mem_map] at h
    rcases h with ⟨y, hy, hq⟩ | h
    · cases hq; exact ⟨List.mem_cons_self x xs, List.mem_cons_of_mem x hy⟩
    · obtain ⟨h1, h2⟩ := ih h
      exact ⟨List.mem_cons_of_mem x h1, List.mem_cons_of_mem x h2⟩

theorem foldr_insert_subset (cands : Finset ℤ) (L : List (ℤ × ℤ))
    (h : ∀ q ∈ L, q.1 ∈ cands ∧ q.2 ∈ cands) :
    L.foldr (fun q s => insert q.1 (insert q.2 s)) ∅ ⊆ cands := by
  induction L with
  | nil => simp
  | cons q L ih =>
    simp only [List.foldr_cons]
    intro x hx
    rcases Finset.mem_insert.1 hx with hx | hx
    · exact hx ▸ (h q (List.mem_cons_self q L)).1
    · rcases Finset.mem_insert.1 hx with hx | hx
      · exact hx ▸ (h q (List.mem_cons_self q L)).2
      · exact ih (fun r hr => h r (List.mem_cons_of_mem q hr)) hx

theorem reducePairs_subset (c : Constraint) (cands : Finset ℤ) :
    reducePairs c cands ⊆ cands := by
  apply foldr_insert_subset
  intro q hq
  have hmem := pairsList_mem (List.mem_of_mem_filter hq)
  exact ⟨mem_sortedElems.1 hmem.1, mem_sortedElems.1 hmem.2⟩

/-- C3 counterexample: the Uniqueness reduction is a symmetric difference, so
a sibling's assigned value that is NOT among the input candidates gets added
to the output — the output is not a subset of the input. -/
theorem claim_C3_counterexample :
    ¬ (reduce ⟨CKind.unique, [0], 0⟩ [some 3] {1} ⊆ {1}) := by
  decide

/-- C3 (amended): `reduce` returns a subset of its input candidates for the
Add, Mul, Sub, Div and SingleValue variants on every input and state; for the
Uniqueness variant this holds whenever every sibling-assigned value is itself
among the input candidates (in general the symmetric difference adds the
assigned values that are missing from the input). -/
theorem claim_C3_amended (c : Constraint) (st : State) (cands : Finset ℤ)
    (h : c.kind = CKind.unique → (assignedVals c st).toFinset ⊆ cands) :
    reduce c st cands ⊆ cands := by
  cases hk : c.kind
  case unique =>
    have hav := h hk
    simp only [reduce, hk, reduce_unique]
    rw [Finset.sdiff_eq_empty_iff_subset.2 hav, Finset.union_empty]
    exact Finset.sdiff_subset
  case add =>
    simp only [reduce, hk, reduce_add]
    split
    · split
      · exact Finset.singleton_subset_iff.2 (by assumption)
      · exact Finset.empty_subset _
    · exact Finset.filter_subset _ _
  case mul =>
    simp only [reduce, hk, reduce_mul]
    split
    · split
      · exact Finset.singleton_subset_iff.2 (by assumption)
      · exact Finset.empty_subset _
    · exact Finset.filter_subset _ _
  case sub => simpa only [reduce, hk] using reducePairs_subset c cands
  case div => simpa only [reduce, hk] using reducePairs_subset c cands
  case con =>
    simp only [reduce, hk, reduce_con]
    split
    · exact Finset.singleton_subset_iff.2 (by assumption)
    · exact Finset.empty_subset _

theorem claim_C3_amended_witness :
    reduce ⟨CKind.unique, [0], 0⟩ [some 1] {1, 2} ⊆ {1, 2} :=
  claim_C3_amended ⟨CKind.unique, [0], 0⟩ [some 1] {1, 2} (fun _ => by decide)

/-! ## C4: the Add reduction -/

/-- C4: with `remainder = target - sum(assigned)`, the Add reduction returns
`{remainder}` (or `∅` when absent from the input) when exactly one cell is
unassigned, and otherwise keeps exactly the input candidates `x` with
`remainder - x > 0` — a candidate equal to the remainder is excluded. -/
theorem claim_C4 (c : Constraint) (st : State) (cands : Finset ℤ)
    (hk : c.kind = CKind.add) :
    ((unassignedCells c st).length = 1 →
      reduce c st cands =
        if c.value - (assignedVals c st).sum ∈ cands
        then {c.value - (assignedVals c st).sum} else ∅) ∧
    (1 < (unassignedCells c st).length →
      ∀ x : ℤ, x ∈ reduce c st cands ↔
        x ∈ cands ∧ c.value - (assignedVals c st).sum - x > 0) := by
  constructor
  · intro h1
    simp only [reduce, hk, reduce_add, if_pos h1]
  · intro h2 x
    have hne : ¬ (unassignedCells c st).length = 1 := by omega
    simp only [reduce, hk, reduce_add, if_neg hne, Finset.mem_filter,
      gt_iff_lt, sub_pos]

theorem claim_C4_witness :
    (reduce ⟨CKind.add, [0, 1], 5⟩ [some 2, none] {1, 2, 3, 4} = {3}) ∧
    ((2 : ℤ) ∈ reduce ⟨CKind.add, [0, 1, 2], 6⟩ [some 1, none, none]
      {1, 2, 3, 4, 5}) := by
  constructor
  · have h := (claim_C4 ⟨CKind.add, [0, 1], 5⟩ [some 2, none] {1, 2, 3, 4} rfl).1
      (by decide)
    rw [h]; decide
  · have h := (claim_C4 ⟨CKind.add, [0, 1, 2], 6⟩ [some 1, none, none]
      {1, 2, 3, 4, 5} rfl).2 (by decide) 2
    exact h.mpr (by decide)

/-! ## C9: candidates is a pure query of the cells' current values -/

theorem values_congr {c : Constraint} {st st' : State}
    (h : ∀ j ∈ c.cells, cellValue st j = cellValue st' j) :
    values c st = values c st' :=
  List.map_congr_left h

theorem unassignedCells_congr {c : Constraint} {st st' : State}
    (h : ∀ j ∈ c.cells, cellValue st j = cellValue st' j) :
    unassignedCells c st = unassignedCells c st' :=
  List.filter_congr (fun j hj => by rw [h j hj])

theorem reduce_congr {c : Constraint} {st st' : State} (cands : Finset ℤ)
    (h : ∀ j ∈ c.cells, cellValue st j = cellValue st' j) :
    reduce c st cands = reduce c st' cands := by
  cases hk : c.kind
  case unique =>
    simp only [reduce, hk, reduce_unique, assignedVals, values_congr h]
  case add =>
    simp only [reduce, hk, reduce_add, assignedVals, values_congr h,
      unassignedCells_congr h]
  case mul =>
    simp only [reduce, hk, reduce_mul, assignedVals, values_congr h,
      unassignedCells_congr h]
  case sub => simp only [reduce, hk]
  case div => simp only [reduce, hk]
  case con => simp only [reduce, hk]

theorem foldl_reduce_congr {st st' : State} (l : List Constraint)
    (h : ∀ c ∈ l, ∀ j ∈ c.cells, cellValue st j = cellValue st' j) :
    ∀ s : Finset ℤ,
      l.foldl (fun cand c => cand ∩ reduce c st cand) s =
        l.foldl (fun cand c => cand ∩ reduce c st' cand) s := by
  induction l with
  | nil => intro s; rfl
  | cons c l ih =>
    intro s
    simp only [List.foldl_cons]
    rw [reduce_congr s (h c (List.mem_cons_self c l))]
    exact ih (fun d hd => h d (List.mem_cons_of_mem c hd)) _

/-- C9: `candidates` is a deterministic pure query — its result is a function
of the current values of the cells of the constraints on the queried cell
alone, so two evaluations with no intervening change to any cell value agree
(and, being a function of the state, an evaluation changes nothing). -/
theorem claim_C9 (p : Puzzle) (i : Nat) (st st' : State)
    (h : ∀ c ∈ cellConstraints p i, ∀ j ∈ c.cells,
      cellValue st j = cellValue st' j) :
    candidates p st i = candidates p st' i :=
  foldl_reduce_congr (cellConstraints p i) h p.domain

theorem claim_C9_witness :
    candidates p22 [some 1, none, none, none] 0 =
      candidates p22 [some 1, none, none, some 5] 0 :=
  claim_C9 p22 0 [some 1, none, none, none] [some 1, none, none, some 5]
    (by decide)

/-! ## Solver search lemmas -/

theorem tryCands_false_eq (p : Puzzle)
    (rec : State → Stats → Option (Bool × State × Stats)) (cell : Nat)
    (hrec : ∀ st1 s1 st2 s2, rec st1 s1 = some (false, st2, s2) → st2 = st1) :
    ∀ (l : List ℤ) (st : State) (stats : Stats) (st' : State) (s' : Stats),
      cellValue st cell = none →
      tryCands p rec cell l st stats = some (false, st', s') → st' = st := by
  intro l
  induction l with
  | nil =>
    intro st stats st' s' hcell h
    simp only [tryCands, Option.some.injEq, Prod.mk.injEq] at h
    exact h.2.1.symm
  | cons v rest ih =>
    intro st stats st' s' hcell h
    simp only [tryCands] at h
    split at h
    · split at h
      · cases h
      · simp at h
      · rename_i st2 stats2 heq
        rw [hrec _ _ _ _ heq, writeCell_restore hcell] at h
        exact ih st stats2 st' s' hcell h
    · rw [writeCell_restore hcell] at h
      exact ih st stats st' s' hcell h

theorem mem_solveOrder {p : Puzzle} {st : State} {i : Nat} :
    i ∈ solveOrder p st ↔ i ∈ unassignedIdxs p st :=
  List.mem_insertionSort _

theorem solveOrder_eq_nil {p : Puzzle} {st : State} :
    solveOrder p st = [] ↔ unassignedIdxs p st = [] := by
  constructor
  · intro h
    have := congrArg List.length h
    rw [solveOrder, List.length_insertionSort] at this
    exact List.eq_nil_of_length_eq_zero this
  · intro h; rw [solveOrder, h]; rfl

theorem solveOrder_head_min {p : Puzzle} {st : State} {cell : Nat} {rest : List Nat}
    (h : solveOrder p st = cell :: rest) :
    ∀ d ∈ unassignedIdxs p st,
      (candidates p st cell).card ≤ (candidates p st d).card := by
  intro d hd
  haveI hto : IsTotal Nat
      (fun a b => (candidates p st a).card ≤ (candidates p st b).card) :=
    ⟨fun a b => Nat.le_total _ _⟩
  haveI htr : IsTrans Nat
      (fun a b => (candidates p st a).card ≤ (candidates p st b).card) :=
    ⟨fun a b c hab hbc => Nat.le_trans hab hbc⟩
  have hsorted : (solveOrder p st).Sorted
      (fun a b => (candidates p st a).card ≤ (candidates p st b).card) :=
    List.sorted_insertionSort _ (unassignedIdxs p st)
  rw [h] at hsorted
  have hd' : d ∈ cell :: rest := by
    rw [← h, mem_solveOrder]; exact hd
  rcases List.mem_cons.1 hd' with hd' | hd'
  · subst hd'; exact le_rfl
  · exact (List.pairwise_cons.1 hsorted).1 d hd'

theorem solveF_false_eq (p : Puzzle) :
    ∀ (fuel : Nat) (st : State) (stats : Stats) (st' : State) (s' : Stats),
      solveF p fuel st stats = some (false, st', s') → st' = st := by
  intro fuel
  induction fuel with
  | zero => intro st stats st' s' h; simp [solveF] at h
  | succ fuel ih =>
    intro st stats st' s' h
    simp only [solveF] at h
    split at h
    · simp only [Option.some.injEq, Prod.mk.injEq] at h
      exact h.2.1.symm
    · rename_i cell rest horder
      split at h
      · cases h
      · simp at h
      · rename_i st1 stats1 heq
        simp only [Option.some.injEq, Prod.mk.injEq] at h
        have hcell : cellValue st cell = none := by
          have hmem : cell ∈ unassignedIdxs p st :=
            mem_solveOrder.1 (horder ▸ List.mem_cons_self cell rest)
          exact (mem_unassignedIdxs.1 hmem).2
        have hst1 : st1 = st :=
          tryCands_false_eq p (solveF p fuel) cell
            (fun a b c d => ih a b c d) _ st stats st1 stats1 hcell heq
        rw [← h.2.1, hst1]

theorem tryCands_isSome (p : Puzzle)
    (rec : State → Stats → Option (Bool × State × Stats)) (cell : Nat) (n : Nat)
    (hrec_some : ∀ st1 s1, st1.length = p.numCells →
      (unassignedIdxs p st1).length < n → (rec st1 s1).isSome = true)
    (hrec_false : ∀ st1 s1 st2 s2,
      rec st1 s1 = some (false, st2, s2) → st2 = st1) :
    ∀ (l : List ℤ) (st : State) (stats : Stats),
      st.length = p.numCells → cell ∈ unassignedIdxs p st →
      (unassignedIdxs p st).length ≤ n →
      (tryCands p rec cell l st stats).isSome = true := by
  intro l
  induction l with
  | nil => intro st stats _ _ _; simp [tryCands]
  | cons v rest ih =>
    intro st stats hlen hmem hcount
    have hcell : cellValue st cell = none := (mem_unassignedIdxs.1 hmem).2
    have hlen1 : (writeCell st cell (some v)).length = p.numCells := by
      rw [length_writeCell]; exact hlen
    have hcount1 : (unassignedIdxs p (writeCell st cell (some v))).length < n := by
      have := length_unassignedIdxs_writeCell_some hlen hmem v
      omega
    simp only [tryCands]
    split
    · have hsome := hrec_some (writeCell st cell (some v))
        ⟨stats.backtracks, stats.recursiveCalls + 1⟩ hlen1 hcount1
      rcases Option.isSome_iff_exists.1 hsome with ⟨⟨b, st2, s2⟩, heq⟩
      rw [heq]
      cases b
      · have hst2 : st2 = writeCell st cell (some v) :=
          hrec_false _ _ _ _ heq
        simp only []
        rw [hst2, writeCell_restore hcell]
        exact ih st s2 hlen hmem hcount
      · simp
    · rw [writeCell_restore hcell]
      exact ih st stats hlen hmem hcount

theorem solveF_isSome (p : Puzzle) :
    ∀ (fuel : Nat) (st : State) (stats : Stats),
      st.length = p.numCells → (unassignedIdxs p st).length < fuel →
      (solveF p fuel st stats).isSome = true := by
  intro fuel
  induction fuel with
  | zero => intro st stats _ h; omega
  | succ fuel ih =>
    intro st stats hlen hcount
    simp only [solveF]
    split
    · simp
    · rename_i cell rest horder
      have hmem : cell ∈ unassignedIdxs p st :=
        mem_solveOrder.1 (horder ▸ List.mem_cons_self cell rest)
      have htc := tryCands_isSome p (solveF p fuel) cell fuel
        (fun st1 s1 h1 h2 => ih st1 s1 h1 h2)
        (fun a b c d => solveF_false_eq p fuel a b c d)
        (candList p st cell) st stats hlen hmem (by omega)
      rcases Option.isSome_iff_exists.1 htc with ⟨⟨b, st1, s1⟩, heq⟩
      rw [heq]
      cases b <;> simp

theorem tryCands_true_solved (p : Puzzle)
    (rec : State → Stats → Option (Bool × State × Stats)) (cell : Nat)
    (hrec_true : ∀ st1 s1 st2 s2, stateInv p st1 →
      rec st1 s1 = some (true, st2, s2) →
      stateInv p st2 ∧ puzzleSolved p st2 = true)
    (hrec_false : ∀ st1 s1 st2 s2,
      rec st1 s1 = some (false, st2, s2) → st2 = st1) :
    ∀ (l : List ℤ) (st : State) (stats : Stats) (st' : State) (s' : Stats),
      stateInv p st → cellValue st cell = none → (∀ v ∈ l, v ∈ p.domain) →
      tryCands p rec cell l st stats = some (true, st', s') →
      stateInv p st' ∧ puzzleSolved p st' = true := by
  intro l
  induction l with
  | nil => intro st stats st' s' _ _ _ h; simp [tryCands] at h
  | cons v rest ih =>
    intro st stats st' s' hinv hcell hdom h
    have hv : v ∈ p.domain := hdom v (List.mem_cons_self v rest)
    have hrest : ∀ w ∈ rest, w ∈ p.domain :=
      fun w hw => hdom w (List.mem_cons_of_mem v hw)
    simp only [tryCands] at h
    split at h
    · split at h
      · cases h
      · rename_i st2 stats2 heq
        simp only [Option.some.injEq, Prod.mk.injEq] at h
        obtain ⟨-, h2, -⟩ := h
        subst h2
        exact hrec_true _ _ _ _ (stateInv_writeCell_some hinv hv) heq
      · rename_i st2 stats2 heq
        have hst2 : st2 = writeCell st cell (some v) :=
          hrec_false _ _ _ _ heq
        rw [hst2, writeCell_restore hcell] at h
        exact ih st stats2 st' s' hinv hcell hrest h
    · rw [writeCell_restore hcell] at h
      exact ih st stats st' s' hinv hcell hrest h

theorem solveF_true_solved (p : Puzzle) :
    ∀ (fuel : Nat) (st : State) (stats : Stats) (st' : State) (s' : Stats),
      stateInv p st → solveF p fuel st stats = some (true, st', s') →
      stateInv p st' ∧ puzzleSolved p st' = true := by
  intro fuel
  induction fuel with
  | zero => intro st stats st' s' _ h; simp [solveF] at h
  | succ fuel ih =>
    intro st stats st' s' hinv h
    simp only [solveF] at h
    split at h
    · rename_i horder
      simp only [Option.some.injEq, Prod.mk.injEq] at h
      obtain ⟨h1, h2, -⟩ := h
      subst h2
      exact ⟨hinv, h1⟩
    · rename_i cell rest horder
      have hcell : cellValue st cell = none := by
        have hmem : cell ∈ unassignedIdxs p st :=
          mem_solveOrder.1 (horder ▸ List.mem_cons_self cell rest)
        exact (mem_unassignedIdxs.1 hmem).2
      split at h
      · cases h
      · rename_i st1 stats1 heq
        simp only [Option.some.injEq, Prod.mk.injEq] at h
        obtain ⟨-, h2, -⟩ := h
        subst h2
        exact tryCands_true_solved p (solveF p fuel) cell
          (fun a b c d hi he => ih a b c d hi he)
          (fun a b c d => solveF_false_eq p fuel a b c d)
          (candList p st cell) st stats st1 stats1 hinv hcell
          (fun v hv => mem_candList_domain hv) heq
      · simp at h

/-! ## Solved puzzles: structure of the final state -/

theorem seqOpt_length : ∀ {l : List (Option ℤ)} {vs : List ℤ},
    seqOpt l = some vs → vs.length = l.length := by
  intro l
  induction l with
  | nil => intro vs h; cases h; rfl
  | cons o l ih =>
    intro vs h
    cases o with
    | none => cases h
    | some v =>
      simp only [seqOpt] at h
      split at h
      · rename_i ws hws
        cases h
        simp [ih hws]
      · cases h

theorem seqOpt_mem : ∀ {l : List (Option ℤ)} {vs : List ℤ},
    seqOpt l = some vs → ∀ v ∈ vs, some v ∈ l := by
  intro l
  induction l with
  | nil => intro vs h v hv; cases h; cases hv
  | cons o l ih =>
    intro vs h v hv
    cases o with
    | none => cases h
    | some w =>
      simp only [seqOpt] at h
      split at h
      · rename_i ws hws
        cases h
        rcases List.mem_cons.1 hv with hv | hv
        · subst hv; exact List.mem_cons_self _ _
        · exact List.mem_cons_of_mem _ (ih hws v hv)
      · cases h

theorem evaluate_unique_nodup {c : Constraint} {vs : List ℤ}
    (hk : c.kind = CKind.unique) (h : evaluate c vs = true) : vs.Nodup := by
  simp only [evaluate, hk, beq_iff_eq] at h
  exact List.dedup_eq_self.1 (vs.dedup_sublist.eq_of_length h)

theorem cellValue_initState (p : Puzzle) (i : Nat) :
    cellValue (initState p) i = none := by
  simp only [cellValue, initState, List.getD_eq_getElem?_getD,
    List.getElem?_replicate]
  by_cases hi : i < p.numCells <;> simp [hi]

theorem length_initState (p : Puzzle) : (initState p).length = p.numCells := by
  simp [initState]

/-- C1: when backtrack_solve succeeds, `puzzle.solved` holds at return: every
constraint is fully assigned with `evaluate` true (so every cage's aggregate
equals its target), and every Uniqueness constraint over N cells holds each
value of {1..N} exactly once (its values are distinct and fill {1..N}). -/
theorem claim_C1 (p : Puzzle) (st' : State) (s' : Stats)
    (h : backtrack_solve p = some (true, st', s')) :
    puzzleSolved p st' = true ∧
    (∀ c ∈ p.constraints,
      ∃ vs, seqOpt (values c st') = some vs ∧ evaluate c vs = true) ∧
    (∀ c ∈ p.constraints, c.kind = CKind.unique → c.cells.length = p.width →
      ∃ vs, seqOpt (values c st') = some vs ∧ vs.Nodup ∧
        vs.toFinset = Finset.Icc 1 (p.width : ℤ)) := by
  obtain ⟨hinv, hsolved⟩ :=
    solveF_true_solved p (p.numCells + 1) (initState p) ⟨0, 0⟩ st' s'
      (stateInv_initState p) h
  have hall : ∀ c ∈ p.constraints, constraintSolved c st' = true :=
    fun c hc => List.all_eq_true.1 hsolved c hc
  have hvals : ∀ c ∈ p.constraints,
      ∃ vs, seqOpt (values c st') = some vs ∧ evaluate c vs = true := by
    intro c hc
    have hcs := hall c hc
    unfold constraintSolved at hcs
    split at hcs
    · rename_i vs hvs; exact ⟨vs, hvs, hcs⟩
    · cases hcs
  refine ⟨hsolved, hvals, ?_⟩
  intro c hc hk hlen
  obtain ⟨vs, hvs, heval⟩ := hvals c hc
  have hnodup : vs.Nodup := evaluate_unique_nodup hk heval
  have hlen' : vs.length = p.width := by
    rw [seqOpt_length hvs, values, List.length_map, hlen]
  have hsub : vs.toFinset ⊆ Finset.Icc 1 (p.width : ℤ) := by
    intro v hv
    have hv' : some v ∈ values c st' := seqOpt_mem hvs v (List.mem_toFinset.1 hv)
    obtain ⟨i, -, hi⟩ := List.mem_map.1 hv'
    exact hinv i v hi
  refine ⟨vs, hvs, hnodup, ?_⟩
  apply Finset.eq_of_subset_of_card_le hsub
  rw [List.toFinset_card_of_nodup hnodup, hlen', Int.card_Icc]
  simp

theorem claim_C1_witness : puzzleSolved p111 [some 1] = true :=
  (claim_C1 p111 [some 1] ⟨0, 1⟩ (by rfl)).1

/-- C5: when backtrack_solve fails, the returned state is exactly the
initialized all-unassigned state: the failure path undoes every assignment. -/
theorem claim_C5 (p : Puzzle) (st' : State) (s' : Stats)
    (h : backtrack_solve p = some (false, st', s')) :
    st' = initState p ∧ ∀ i, cellValue st' i = none := by
  have hst : st' = initState p :=
    solveF_false_eq p (p.numCells + 1) (initState p) ⟨0, 0⟩ st' s' h
  exact ⟨hst, fun i => hst ▸ cellValue_initState p i⟩

theorem claim_C5_witness :
    ([none, none, none, none] : State) = initState p22 :=
  (claim_C5 p22 [none, none, none, none] ⟨2, 1⟩ (by rfl)).1

/-- C7: backtrack_solve terminates — each recursive descent assigns a
previously unassigned cell, so with fuel exceeding the number of unassigned
cells the search never exhausts its fuel, and `backtrack_solve` (whose fuel
`numCells + 1` bounds the recursion depth by the total number of cells)
always returns a result. -/
theorem claim_C7 (p : Puzzle) :
    (∀ (fuel : Nat) (st : State) (stats : Stats),
      st.length = p.numCells → (unassignedIdxs p st).length < fuel →
      (solveF p fuel st stats).isSome = true) ∧
    (backtrack_solve p).isSome = true := by
  refine ⟨solveF_isSome p, ?_⟩
  apply solveF_isSome p (p.numCells + 1) (initState p) ⟨0, 0⟩ (length_initState p)
  have : (unassignedIdxs p (initState p)).length ≤ p.numCells := by
    have := List.length_filter_le
      (fun i => (cellValue (initState p) i).isNone) (List.range p.numCells)
    simpa [unassignedIdxs] using this
  omega

theorem claim_C7_witness :
    (solveF p111 2 [none] ⟨0, 0⟩).isSome = true ∧
    (backtrack_solve p22).isSome = true :=
  ⟨(claim_C7 p111).1 2 [none] ⟨0, 0⟩ (by rfl) (by decide), (claim_C7 p22).2⟩

/-! ## C2: the 1×1 boundary puzzle -/

/-- C2 counterexample: the 1×1 SingleValue puzzle does solve, but with
`recursive_calls` equal to 1, not 0 — the single consistent assignment bumps
the counter before the base-case recursive call that reports `solved`. -/
theorem claim_C2_counterexample :
    backtrack_solve p111 = some (true, [some 1], ⟨0, 1⟩) ∧
    (⟨0, 1⟩ : Stats).recursiveCalls ≠ 0 :=
  ⟨by rfl, by decide⟩

/-- C2 (amended): the 1×1 puzzle with a single SingleValue cage of target 1
solves immediately with `success=true`, `backtracks == 0` and
`recursive_calls == 1` (the one consistent assignment counts one recursive
descent before the solved base case). -/
theorem claim_C2_amended :
    backtrack_solve p111 = some (true, [some 1], ⟨0, 1⟩) := by
  rfl

/-! ## C8: an unsatisfiable puzzle -/

/-- C8: the 2×2 puzzle with two SingleValue cages both demanding 1 in the
same row fails with at least one backtrack (concretely: two backtracks, one
consistent descent, and a fully unassigned final state). -/
theorem claim_C8 :
    ∃ (st' : State) (s' : Stats),
      backtrack_solve p22 = some (false, st', s') ∧ 1 ≤ s'.backtracks :=
  ⟨[none, none, none, none], ⟨2, 1⟩, by rfl, by decide⟩

/-! ## C6: single-cell examination, minimum-candidate choice, statistics -/

/-- C6: a recursive call with at least one unassigned cell examines exactly
one cell — the head of the sorted order, which has the minimum candidate
count among all unassigned cells — and its outcome is that of the candidate
loop (`tryCands`, which bumps `recursive_calls` exactly once per assignment
that passes the consistency check, just before recursing) on that single
cell's candidate list: success propagates unchanged, while exhausting that
cell's candidates returns failure with `backtracks` bumped exactly once and
`recursive_calls` untouched, regardless of the other unassigned cells. -/
theorem claim_C6 (p : Puzzle) (fuel : Nat) (st : State) (stats : Stats)
    (hne : unassignedIdxs p st ≠ []) :
    ∃ (cell : Nat) (rest : List Nat),
      solveOrder p st = cell :: rest ∧
      cell ∈ unassignedIdxs p st ∧
      (∀ d ∈ unassignedIdxs p st,
        (candidates p st cell).card ≤ (candidates p st d).card) ∧
      (∀ (st1 : State) (s1 : Stats),
        tryCands p (solveF p fuel) cell (candList p st cell) st stats =
            some (false, st1, s1) →
          solveF p (fuel + 1) st stats =
            some (false, st1, ⟨s1.backtracks + 1, s1.recursiveCalls⟩)) ∧
      (∀ (st1 : State) (s1 : Stats),
        tryCands p (solveF p fuel) cell (candList p st cell) st stats =
            some (true, st1, s1) →
          solveF p (fuel + 1) st stats = some (true, st1, s1)) := by
  have hno : solveOrder p st ≠ [] := fun h => hne (solveOrder_eq_nil.1 h)
  obtain ⟨cell, rest, horder⟩ := List.exists_cons_of_ne_nil hno
  refine ⟨cell, rest, horder, ?_, solveOrder_head_min horder, ?_, ?_⟩
  · exact mem_solveOrder.1 (horder ▸ List.mem_cons_self cell rest)
  · intro st1 s1 htc
    simp only [solveF, horder, htc]
  · intro st1 s1 htc
    simp only [solveF, horder, htc]

theorem claim_C6_witness :
    ∃ (cell : Nat) (rest : List Nat),
      solveOrder p22 (initState p22) = cell :: rest ∧
      cell ∈ unassignedIdxs p22 (initState p22) ∧
      (∀ d ∈ unassignedIdxs p22 (initState p22),
        (candidates p22 (initState p22) cell).card ≤
          (candidates p22 (initState p22) d).card) ∧
      (∀ (st1 : State) (s1 : Stats),
        tryCands p22 (solveF p22 4) cell
            (candList p22 (initState p22) cell) (initState p22) ⟨0, 0⟩ =
            some (false, st1, s1) →
          solveF p22 (4 + 1) (initState p22) ⟨0, 0⟩ =
            some (false, st1, ⟨s1.backtracks + 1, s1.recursiveCalls⟩)) ∧
      (∀ (st1 : State) (s1 : Stats),
        tryCands p22 (solveF p22 4) cell
            (candList p22 (initState p22) cell) (initState p22) ⟨0, 0⟩ =
            some (true, st1, s1) →
          solveF p22 (4 + 1) (initState p22) ⟨0, 0⟩ = some (true, st1, s1)) :=
  claim_C6 p22 4 (initState p22) ⟨0, 0⟩ (by decide)

end KenKen
